import Mathlib

/-!
Verification development for a first-fit heap allocator (`src/malloc.c`).

The C program manages a single `mmap`-ed region formatted as a singly linked
list of contiguous `Block` headers.  We embed the heap as the list of block
headers in chain (= address) order: the `next` pointer of a block is the
address of the following list element (or null for the last element), which
is exactly how the C list is laid out and traversed.  `size_t` arithmetic is
modelled as natural-number arithmetic modulo `2 ^ 64` (LP64); addresses are
abstract natural numbers, as pointer arithmetic in the program never wraps.
-/

namespace MallocC

/-- Modulus of `size_t` arithmetic on the LP64 platform the program targets. -/
def MOD : Nat := 2 ^ 64

/-- Value of `sizeof(Block)` on LP64: 8 (`size_t size`) + 4 (`enum bool free`)
    + 4 (padding) + 8 (`struct Block* next`). -/
def headerSize : Nat := 24

/-- Macro `MIN_BLOCK_SIZE = sizeof(size_t)`: minimum payload of a block. -/
def MIN_BLOCK_SIZE : Nat := 8

/-- Addition of two `size_t` values (wraps modulo `2 ^ 64`). -/
def add64 (a b : Nat) : Nat := (a + b) % MOD

/-- Subtraction of two `size_t` values (wraps modulo `2 ^ 64`). -/
def sub64 (a b : Nat) : Nat := (a % MOD + MOD - b % MOD) % MOD

/-- A block header: `struct Block { size_t size; bool free; struct Block* next; }`.
    `addr` is the address the header lives at; the `next` field is represented
    positionally, as the following element of the heap's block list (the C list
    is traversed exactly in this order). -/
structure Block where
  addr : Nat
  size : Nat
  free : Bool
deriving DecidableEq, Repr

/-- The global `Heap heap`: `head` is the first element of `blocks`
    (empty list = null `head`), `size` is the total mapped size. -/
structure Heap where
  blocks : List Block
  size : Nat
deriving DecidableEq, Repr

/-- Sentinel address for `MAP_FAILED`, i.e. `(void * ) -1`. -/
def MAP_FAILED_ADDR : Nat := MOD - 1

/-- `init_heap`: stores the `mmap` result (the argument `memory`, whatever it
    is — the C code performs no failure check on it) as `heap.head`, records
    `heap.size = size`, and formats one block there with
    `first->size = size - sizeof(Block)` (a `size_t` subtraction),
    `first->free = true`, `first->next = NULL`. -/
def init_heap (memory : Nat) (size : Nat) : Heap :=
  { blocks := [{ addr := memory, size := sub64 size headerSize, free := true }],
    size := size }

/-- `find_free_block`: walk the chain from `head`, return the first block with
    `curr->free && curr->size >= size`, or null when the list is exhausted. -/
def find_free_block (size : Nat) : List Block → Option Block
  | [] => none
  | curr :: rest =>
    if curr.free = true ∧ size ≤ curr.size then some curr
    else find_free_block size rest

/-- `split_block(block, left_size)`: returns the two headers the C function
    leaves in memory.  The first component is the original (left) header, its
    `size` shrunk to `left_size`; the second is the new right header written at
    `(void * ) block + sizeof(Block) + left_size` with
    `size = block->size - sizeof(Block) - left_size` (`size_t` arithmetic) and
    `free = true`.  The relinking (`new->next = block->next; block->next = new`)
    is realised by splicing both headers consecutively into the chain. -/
def split_block (block : Block) (left_size : Nat) : Block × Block :=
  ({ block with size := left_size },
   { addr := block.addr + headerSize + left_size,
     size := sub64 (sub64 block.size headerSize) left_size,
     free := true })

/-- The block headers `malloc` leaves in place of the found block: if
    `block->size >= size + sizeof(Block) + MIN_BLOCK_SIZE` (`size_t` sums) the
    block is split and its left part marked busy, otherwise the whole block is
    marked busy. -/
def alloc_pieces (size : Nat) (block : Block) : List Block :=
  if add64 (add64 size headerSize) MIN_BLOCK_SIZE ≤ block.size then
    [{ (split_block block size).1 with free := false }, (split_block block size).2]
  else
    [{ block with free := false }]

/-- Effect of `malloc` on the block chain, fused with the `find_free_block`
    walk: at the first block with `free && size <= block->size` the chain is
    rewritten in place through the found pointer (`alloc_pieces`) and the
    payload address `(void * ) block + sizeof(Block)` is returned; if no block
    qualifies the chain is left untouched and null is returned. -/
def malloc_list (size : Nat) : List Block → List Block × Option Nat
  | [] => ([], none)
  | block :: rest =>
    if block.free = true ∧ size ≤ block.size then
      (alloc_pieces size block ++ rest, some (block.addr + headerSize))
    else
      ((block :: (malloc_list size rest).1), (malloc_list size rest).2)

/-- `malloc(size)`: find a big enough free block, possibly split it, mark it
    busy, and return the payload address; `none` models the `NULL` return. -/
def malloc (h : Heap) (size : Nat) : Heap × Option Nat :=
  ({ h with blocks := (malloc_list size h.blocks).1 }, (malloc_list size h.blocks).2)

/-- The lines `print_heap` produces, one `(free?, address, size)` triple per
    block, in chain order from `head`. -/
def print_heap_blocks : List Block → List (Bool × Nat × Nat)
  | [] => []
  | curr :: rest => (curr.free, curr.addr, curr.size) :: print_heap_blocks rest

/-- `print_heap`: returns its output lines together with the heap as it stands
    after the walk — the loop only reads `curr->free`, `curr`, `curr->size`
    and `curr->next`, so the heap after the walk is the heap before it. -/
def print_heap (h : Heap) : List (Bool × Nat × Nat) × Heap :=
  (print_heap_blocks h.blocks, h)

/-- Sum of `header_size + size` over all blocks of a chain. -/
def coverage (blocks : List Block) : Nat :=
  (blocks.map (fun b => headerSize + b.size)).sum

/-- The contiguity check: every block's successor in the chain sits exactly
    `header_size + size` bytes after it. -/
def contiguousB : List Block → Bool
  | [] => true
  | [_] => true
  | a :: b :: rest => (b.addr == a.addr + headerSize + a.size) && contiguousB (b :: rest)

/-- The value of each block's `next` field, in chain order: the address of the
    following header, or `none` (null) for the terminal block. -/
def next_addrs : List Block → List (Option Nat)
  | [] => []
  | [_] => [none]
  | _ :: b :: rest => some b.addr :: next_addrs (b :: rest)

/-- Heap states reachable by one `init_heap` call followed by any sequence of
    `malloc` calls.  The `init` size is assumed to be at least the header size
    (`init_heap` underflows otherwise) and representable without making later
    `size_t` arithmetic wrap. -/
inductive Reachable : Nat → Heap → Prop where
  | init (memory size : Nat) (hlo : headerSize ≤ size) (hhi : size + MIN_BLOCK_SIZE < MOD) :
      Reachable size (init_heap memory size)
  | step (size : Nat) (h : Heap) (req : Nat) :
      Reachable size h → Reachable size (malloc h req).1

/-! ### Basic arithmetic lemmas -/

/-- When the mathematical sum stays below `2 ^ 64`, `size_t` addition is exact. -/
lemma add64_eq {a b : Nat} (h : a + b < MOD) : add64 a b = a + b :=
  Nat.mod_eq_of_lt h

/-- When the subtrahend is no bigger than a `size_t`-ranged minuend, `size_t`
    subtraction is exact. -/
lemma sub64_eq {a b : Nat} (hba : b ≤ a) (ha : a < MOD) : sub64 a b = a - b := by
  have hb : b < MOD := lt_of_le_of_lt hba ha
  unfold sub64
  rw [Nat.mod_eq_of_lt ha, Nat.mod_eq_of_lt hb]
  have h1 : a + MOD - b = (a - b) + MOD := by omega
  rw [h1, Nat.add_mod_right, Nat.mod_eq_of_lt (by omega)]

/-! ### `find_free_block` -/

@[simp] lemma find_free_block_nil (size : Nat) : find_free_block size [] = none := rfl

lemma find_free_block_cons (size : Nat) (curr : Block) (rest : List Block) :
    find_free_block size (curr :: rest) =
      if curr.free = true ∧ size ≤ curr.size then some curr
      else find_free_block size rest := rfl

/-- Characterisation of the first-fit search: it returns `some b` exactly when
    the chain decomposes as `pre ++ b :: post` with `b` free and large enough
    and nothing in `pre` qualifying. -/
lemma find_free_block_eq_some_iff {size : Nat} {bs : List Block} {b : Block} :
    find_free_block size bs = some b ↔
      ∃ pre post, bs = pre ++ b :: post ∧ b.free = true ∧ size ≤ b.size ∧
        ∀ x ∈ pre, ¬(x.free = true ∧ size ≤ x.size) := by
  induction bs with
  | nil =>
    simp only [find_free_block_nil]
    constructor
    · intro h; cases h
    · rintro ⟨pre, post, h, -⟩
      exact absurd h (by simp)
  | cons hd tl ih =>
    rw [find_free_block_cons]
    by_cases hfit : hd.free = true ∧ size ≤ hd.size
    · simp only [if_pos hfit]
      constructor
      · rintro ⟨rfl⟩
        exact ⟨[], tl, rfl, hfit.1, hfit.2, by simp⟩
      · rintro ⟨pre, post, heq, hfree, hsz, hpre⟩
        cases pre with
        | nil =>
          simp only [List.nil_append, List.cons.injEq] at heq
          rw [heq.1]
        | cons p pre2 =>
          simp only [List.cons_append, List.cons.injEq] at heq
          exact absurd hfit (heq.1 ▸ hpre p (by simp))
    · simp only [if_neg hfit]
      rw [ih]
      constructor
      · rintro ⟨pre, post, heq, hfree, hsz, hpre⟩
        refine ⟨hd :: pre, post, by simp [heq], hfree, hsz, ?_⟩
        intro x hx
        rcases List.mem_cons.mp hx with rfl | hx2
        · exact hfit
        · exact hpre x hx2
      · rintro ⟨pre, post, heq, hfree, hsz, hpre⟩
        cases pre with
        | nil =>
          simp only [List.nil_append, List.cons.injEq] at heq
          exact absurd (heq.1 ▸ ⟨hfree, hsz⟩) hfit
        | cons p pre2 =>
          simp only [List.cons_append, List.cons.injEq] at heq
          refine ⟨pre2, post, heq.2, hfree, hsz, ?_⟩
          intro x hx
          exact hpre x (by simp [hx])

/-- The search returns null exactly when no block qualifies. -/
lemma find_free_block_eq_none_iff {size : Nat} {bs : List Block} :
    find_free_block size bs = none ↔
      ∀ x ∈ bs, ¬(x.free = true ∧ size ≤ x.size) := by
  induction bs with
  | nil => simp
  | cons hd tl ih =>
    rw [find_free_block_cons]
    by_cases hfit : hd.free = true ∧ size ≤ hd.size
    · simp [if_pos hfit, hfit]
    · simp only [if_neg hfit, ih]
      constructor
      · intro h x hx
        rcases List.mem_cons.mp hx with rfl | hx2
        · exact hfit
        · exact h x hx2
      · intro h x hx
        exact h x (by simp [hx])

/-! ### `malloc_list` -/

@[simp] lemma malloc_list_nil (size : Nat) : malloc_list size [] = ([], none) := rfl

lemma malloc_list_cons (size : Nat) (block : Block) (rest : List Block) :
    malloc_list size (block :: rest) =
      if block.free = true ∧ size ≤ block.size then
        (alloc_pieces size block ++ rest, some (block.addr + headerSize))
      else
        ((block :: (malloc_list size rest).1), (malloc_list size rest).2) := rfl

/-- When no block qualifies, `malloc` walks off the end of the chain and
    leaves it untouched. -/
lemma malloc_list_of_no_fit {size : Nat} {bs : List Block}
    (h : ∀ x ∈ bs, ¬(x.free = true ∧ size ≤ x.size)) :
    malloc_list size bs = (bs, none) := by
  induction bs with
  | nil => rfl
  | cons hd tl ih =>
    rw [malloc_list_cons, if_neg (h hd (by simp)),
      ih (fun x hx => h x (by simp [hx]))]

/-- At the first qualifying block the chain is rewritten in place and the
    payload address returned. -/
lemma malloc_list_decomp (size : Nat) (pre : List Block) (b : Block) (post : List Block)
    (hpre : ∀ x ∈ pre, ¬(x.free = true ∧ size ≤ x.size))
    (hfree : b.free = true) (hsz : size ≤ b.size) :
    malloc_list size (pre ++ b :: post) =
      (pre ++ (alloc_pieces size b ++ post), some (b.addr + headerSize)) := by
  induction pre with
  | nil => simp [malloc_list_cons, hfree, hsz]
  | cons p pre2 ih =>
    have hp : ¬(p.free = true ∧ size ≤ p.size) := hpre p (by simp)
    have ih2 := ih (fun x hx => hpre x (by simp [hx]))
    simp [malloc_list_cons, if_neg hp, ih2]

/-- The address returned by `malloc` is the payload address of the block found
    by `find_free_block` (and null exactly when the search fails). -/
lemma malloc_list_snd_eq_find (size : Nat) (bs : List Block) :
    (malloc_list size bs).2 =
      (find_free_block size bs).map (fun b => b.addr + headerSize) := by
  induction bs with
  | nil => rfl
  | cons hd tl ih =>
    rw [malloc_list_cons, find_free_block_cons]
    by_cases hfit : hd.free = true ∧ size ≤ hd.size
    · simp [if_pos hfit]
    · simp [if_neg hfit, ih]

/-! ### Coverage and contiguity helpers -/

@[simp] lemma coverage_nil : coverage [] = 0 := rfl

@[simp] lemma coverage_cons (b : Block) (bs : List Block) :
    coverage (b :: bs) = headerSize + b.size + coverage bs := by
  simp [coverage]

@[simp] lemma contiguousB_nil : contiguousB [] = true := rfl

@[simp] lemma contiguousB_single (b : Block) : contiguousB [b] = true := rfl

lemma contiguousB_cons_cons (a b : Block) (rest : List Block) :
    contiguousB (a :: b :: rest) = true ↔
      b.addr = a.addr + headerSize + a.size ∧ contiguousB (b :: rest) = true := by
  simp [contiguousB]

/-- Only the head's address and size matter for the contiguity of a chain with
    a substituted head. -/
lemma contiguousB_cons_congr {x y : Block}
    (hxy : x.addr + headerSize + x.size = y.addr + headerSize + y.size)
    (rest : List Block) :
    contiguousB (x :: rest) = contiguousB (y :: rest) := by
  cases rest with
  | nil => rfl
  | cons p r => simp [contiguousB, hxy]

/-! ### `alloc_pieces` normal forms -/

/-- Below the wrap threshold, the `size_t` sum in malloc's split test is the
    mathematical sum. -/
lemma add64_threshold {size : Nat} (h : size + headerSize + MIN_BLOCK_SIZE < MOD) :
    add64 (add64 size headerSize) MIN_BLOCK_SIZE = size + headerSize + MIN_BLOCK_SIZE := by
  have h1 : size + headerSize < MOD := by
    simp only [MIN_BLOCK_SIZE] at h; omega
  rw [add64_eq h1, add64_eq h]

/-- When splitting happens and no arithmetic wraps, the found block is replaced
    by a busy left part of exactly the requested size and a free right part
    holding the remainder. -/
lemma alloc_pieces_split_eq {size : Nat} {b : Block}
    (hbM : b.size < MOD)
    (hthr : size + headerSize + MIN_BLOCK_SIZE < MOD)
    (hcond : size + headerSize + MIN_BLOCK_SIZE ≤ b.size) :
    alloc_pieces size b =
      [{ b with size := size, free := false },
       { addr := b.addr + headerSize + size,
         size := b.size - headerSize - size, free := true }] := by
  unfold alloc_pieces split_block
  rw [add64_threshold hthr, if_pos hcond]
  have h1 : sub64 b.size headerSize = b.size - headerSize :=
    sub64_eq (by omega) hbM
  have h2 : sub64 (b.size - headerSize) size = b.size - headerSize - size :=
    sub64_eq (by omega) (by omega)
  rw [h1, h2]

/-- When the remainder would be below the minimum block size, the found block
    is just marked busy, its size untouched. -/
lemma alloc_pieces_nosplit_eq {size : Nat} {b : Block}
    (hthr : size + headerSize + MIN_BLOCK_SIZE < MOD)
    (hcond : ¬ size + headerSize + MIN_BLOCK_SIZE ≤ b.size) :
    alloc_pieces size b = [{ b with free := false }] := by
  unfold alloc_pieces
  rw [add64_threshold hthr, if_neg hcond]

/-! ### Preservation of the structural invariants by `malloc` -/

/-- Master preservation lemma: provided every block size is small enough that
    the split test cannot wrap, one `malloc` walk preserves coverage, the size
    bound, the head address, contiguity, and non-emptiness of the chain. -/
lemma malloc_list_preserves (size : Nat) :
    ∀ bs : List Block,
      (∀ b ∈ bs, b.size + headerSize + MIN_BLOCK_SIZE < MOD) →
      coverage (malloc_list size bs).1 = coverage bs ∧
      (∀ b ∈ (malloc_list size bs).1, b.size + headerSize + MIN_BLOCK_SIZE < MOD) ∧
      (malloc_list size bs).1.head?.map Block.addr = bs.head?.map Block.addr ∧
      (contiguousB bs = true → contiguousB (malloc_list size bs).1 = true) ∧
      ((malloc_list size bs).1 = [] → bs = []) := by
  intro bs
  induction bs with
  | nil => intro _; simp
  | cons b rest ih =>
    intro hbound
    have hb := hbound b (by simp)
    have hrest : ∀ x ∈ rest, x.size + headerSize + MIN_BLOCK_SIZE < MOD :=
      fun x hx => hbound x (by simp [hx])
    by_cases hfit : b.free = true ∧ size ≤ b.size
    · rw [malloc_list_cons, if_pos hfit]
      have hbM : b.size < MOD := by omega
      have hthr : size + headerSize + MIN_BLOCK_SIZE < MOD := by
        have := hfit.2; omega
      by_cases hcond : size + headerSize + MIN_BLOCK_SIZE ≤ b.size
      · rw [alloc_pieces_split_eq hbM hthr hcond]
        refine ⟨?_, ?_, ?_, ?_, ?_⟩
        · simp only [List.cons_append, List.nil_append, coverage_cons]
          omega
        · intro x hx
          simp only [List.cons_append, List.nil_append, List.mem_cons] at hx
          rcases hx with rfl | rfl | hx
          · simpa using hthr
          · simp only []
            omega
          · exact hrest x hx
        · simp
        · intro hcont
          simp only [List.cons_append, List.nil_append]
          rw [contiguousB_cons_cons]
          refine ⟨by simp, ?_⟩
          have hcongr := contiguousB_cons_congr (x :=
              { addr := b.addr + headerSize + size,
                size := b.size - headerSize - size, free := true }) (y := b)
            (by simp only []; omega) rest
          rw [hcongr]
          exact hcont
        · simp
      · rw [alloc_pieces_nosplit_eq hthr hcond]
        refine ⟨by simp, ?_, by simp, ?_, by simp⟩
        · intro x hx
          simp only [List.cons_append, List.nil_append, List.mem_cons] at hx
          rcases hx with rfl | hx
          · simpa using hb
          · exact hrest x hx
        · intro hcont
          simp only [List.cons_append, List.nil_append]
          rw [contiguousB_cons_congr (x := { b with free := false }) (y := b) (by simp) rest]
          exact hcont
    · rw [malloc_list_cons, if_neg hfit]
      obtain ⟨ih1, ih2, ih3, ih4, ih5⟩ := ih hrest
      refine ⟨by simp [ih1], ?_, by simp, ?_, by simp⟩
      · intro x hx
        rcases List.mem_cons.mp hx with rfl | hx2
        · exact hb
        · exact ih2 x hx2
      · intro hcont
        cases rest with
        | nil => simp
        | cons p rest2 =>
          obtain ⟨hpb, hcont2⟩ := (contiguousB_cons_cons b p rest2).mp hcont
          have hne : (malloc_list size (p :: rest2)).1 ≠ [] := by
            intro hnil
            exact absurd (ih5 hnil) (by simp)
          obtain ⟨q, r2, hq⟩ : ∃ q r2, (malloc_list size (p :: rest2)).1 = q :: r2 := by
            cases hql : (malloc_list size (p :: rest2)).1 with
            | nil => exact absurd hql hne
            | cons q r2 => exact ⟨q, r2, rfl⟩
          rw [hq]
          rw [hq] at ih3
          simp only [List.head?_cons, Option.map_some] at ih3
          have hqp : q.addr = p.addr := by
            simpa using ih3
          rw [contiguousB_cons_cons]
          refine ⟨by rw [hqp]; exact hpb, ?_⟩
          have := ih4 hcont2
          rw [hq] at this
          exact this

/-- The structural invariants hold in every reachable heap state: the chain is
    non-empty, contiguous, all sizes stay below the wrap threshold, and the
    bytes covered are exactly the initialisation size. -/
lemma reachable_inv {s : Nat} {h : Heap} (R : Reachable s h) :
    h.blocks ≠ [] ∧ contiguousB h.blocks = true ∧
    (∀ b ∈ h.blocks, b.size + headerSize + MIN_BLOCK_SIZE < MOD) ∧
    coverage h.blocks = s := by
  induction R with
  | init memory size hlo hhi =>
    have hsM : size < MOD := by simp only [MIN_BLOCK_SIZE] at hhi; omega
    have hsub : sub64 size headerSize = size - headerSize := sub64_eq hlo hsM
    refine ⟨by simp [init_heap], by simp [init_heap], ?_, ?_⟩
    · intro b hb
      simp only [init_heap, List.mem_singleton] at hb
      subst hb
      simp only [hsub]
      omega
    · simp [init_heap, coverage, hsub]
      omega
  | step size hp req R ih =>
    obtain ⟨ih1, ih2, ih3, ih4⟩ := ih
    obtain ⟨p1, p2, p3, p4, p5⟩ := malloc_list_preserves req hp.blocks ih3
    refine ⟨fun hnil => ih1 (p5 hnil), p4 ih2, p2, ?_⟩
    rw [show (malloc hp req).1.blocks = (malloc_list req hp.blocks).1 from rfl, p1]
    exact ih4

/-- A non-empty chain has exactly one null `next` field, at its last block. -/
lemma next_addrs_count_none : ∀ bs : List Block, bs ≠ [] → (next_addrs bs).count none = 1 := by
  intro bs
  induction bs with
  | nil => intro hne; exact absurd rfl hne
  | cons b rest ih =>
    intro _
    cases rest with
    | nil => simp [next_addrs]
    | cons c rest2 =>
      show ((some c.addr :: next_addrs (c :: rest2)).count none = 1)
      rw [List.count_cons, ih (by simp)]
      simp

/-- Any chain holding a free block makes the zero-size search succeed. -/
lemma find_zero_of_free {bs : List Block} (hex : ∃ b ∈ bs, b.free = true) :
    ∃ f, find_free_block 0 bs = some f := by
  induction bs with
  | nil => simp at hex
  | cons hd tl ih =>
    by_cases hf : hd.free = true
    · exact ⟨hd, by rw [find_free_block_cons, if_pos ⟨hf, Nat.zero_le _⟩]⟩
    · obtain ⟨b, hb, hbf⟩ := hex
      rcases List.mem_cons.mp hb with rfl | hb2
      · exact absurd hbf hf
      · obtain ⟨f, hfind⟩ := ih ⟨b, hb2, hbf⟩
        exact ⟨f, by rw [find_free_block_cons, if_neg (fun hc => hf hc.1), hfind]⟩

/-- The heap walk output lists exactly each block's status, address and size in
    chain order. -/
lemma print_heap_blocks_eq_map (bs : List Block) :
    print_heap_blocks bs = bs.map (fun b => (b.free, b.addr, b.size)) := by
  induction bs with
  | nil => rfl
  | cons b rest ih => simp [print_heap_blocks, ih]

/-! ### Concrete heaps used by witnesses and counterexamples -/

/-- A heap whose free blocks in address order have sizes 16, 4096 and 32. -/
def firstFitHeap : Heap :=
  { blocks := [{ addr := 0, size := 16, free := true },
               { addr := 40, size := 4096, free := true },
               { addr := 4160, size := 32, free := true }],
    size := 4216 }

/-- A busy block followed by a large free block. -/
def busyFreeHeap : Heap :=
  { blocks := [{ addr := 0, size := 16, free := false },
               { addr := 40, size := 4096, free := true }],
    size := 4160 }

/-- One free block whose size exactly matches the request made of it. -/
def exactFitHeap : Heap :=
  { blocks := [{ addr := 0, size := 8, free := true }], size := 32 }

/-- One free block far too small for the request made of it. -/
def smallFreeHeap : Heap :=
  { blocks := [{ addr := 0, size := 4, free := true }], size := 28 }

/-- One large free block. -/
def oneFreeHeap : Heap :=
  { blocks := [{ addr := 0, size := 100, free := true }], size := 124 }

/-- A free block used to demonstrate `split_block`. -/
def splitDemoBlock : Block := { addr := 0, size := 100, free := true }

/-! ### Claim theorems -/

/-- Claim C2: `find_free_block` scans blocks in chain (= address) order from
    `head` and returns the first block with `free == true` and
    `size >= requested_size`; it returns null (not an error) when no block
    qualifies; it is embedded as a pure function of the chain, so no block is
    mutated.  In particular, on free blocks of sizes 16, 4096, 32 a request
    for 20 bytes returns the 4096-byte block — first sufficient, not
    smallest. -/
theorem find_free_block_first_fit :
    (∀ (bs : List Block) (req : Nat) (b : Block),
      (find_free_block req bs = some b ↔
        ∃ pre post, bs = pre ++ b :: post ∧ b.free = true ∧ req ≤ b.size ∧
          ∀ x ∈ pre, ¬(x.free = true ∧ req ≤ x.size)) ∧
      (find_free_block req bs = none ↔
        ∀ x ∈ bs, ¬(x.free = true ∧ req ≤ x.size))) ∧
    find_free_block 20 firstFitHeap.blocks =
      some { addr := 40, size := 4096, free := true } :=
  ⟨fun _ _ _ => ⟨find_free_block_eq_some_iff, find_free_block_eq_none_iff⟩, by decide⟩

/-- Claim C1 (amended): when `find_free_block` finds a block `b` for request
    `req` (and no `size_t` arithmetic wraps), `malloc` returns the payload
    address `b.addr + header_size`; if `b.size >= req + header_size +
    MIN_BLOCK_SIZE` it splits the block at the requested size (busy left part
    of size `req`, free right remainder), otherwise it does not split and the
    whole block becomes busy with a size at least — not necessarily strictly
    greater than — the request. -/
theorem malloc_found_contract (h : Heap) (req : Nat) (b : Block)
    (hfind : find_free_block req h.blocks = some b)
    (hreq : req + headerSize + MIN_BLOCK_SIZE < MOD)
    (hbM : b.size < MOD) :
    (malloc h req).2 = some (b.addr + headerSize) ∧
    req ≤ b.size ∧
    ∃ pre post, h.blocks = pre ++ b :: post ∧
      (∀ x ∈ pre, ¬(x.free = true ∧ req ≤ x.size)) ∧
      (malloc h req).1.blocks =
        pre ++ (if req + headerSize + MIN_BLOCK_SIZE ≤ b.size then
            [{ b with size := req, free := false },
             { addr := b.addr + headerSize + req,
               size := b.size - headerSize - req, free := true }]
          else [{ b with free := false }]) ++ post := by
  obtain ⟨pre, post, heq, hfree, hsz, hpre⟩ := find_free_block_eq_some_iff.mp hfind
  have hml := malloc_list_decomp req pre b post hpre hfree hsz
  refine ⟨?_, hsz, pre, post, heq, hpre, ?_⟩
  · show (malloc_list req h.blocks).2 = some (b.addr + headerSize)
    rw [heq, hml]
  · show (malloc_list req h.blocks).1 = _
    rw [heq, hml]
    by_cases hcond : req + headerSize + MIN_BLOCK_SIZE ≤ b.size
    · rw [if_pos hcond, alloc_pieces_split_eq hbM hreq hcond]
      simp [List.append_assoc]
    · rw [if_neg hcond, alloc_pieces_nosplit_eq hreq hcond]
      simp [List.append_assoc]

/-- Claim C1 witness: on a busy block followed by a free 4096-byte block at
    address 40, `malloc 20` returns payload address `40 + header_size` and
    splits the free block at size 20. -/
theorem malloc_found_contract_witness :
    (malloc busyFreeHeap 20).2 = some (40 + headerSize) ∧
    20 ≤ 4096 ∧
    ∃ pre post, busyFreeHeap.blocks =
        pre ++ ({ addr := 40, size := 4096, free := true } : Block) :: post ∧
      (∀ x ∈ pre, ¬(x.free = true ∧ 20 ≤ x.size)) ∧
      (malloc busyFreeHeap 20).1.blocks =
        pre ++ (if 20 + headerSize + MIN_BLOCK_SIZE ≤ 4096 then
            [{ ({ addr := 40, size := 4096, free := true } : Block) with
                size := 20, free := false },
             { addr := 40 + headerSize + 20,
               size := 4096 - headerSize - 20, free := true }]
          else [{ ({ addr := 40, size := 4096, free := true } : Block) with
                    free := false }]) ++ post :=
  malloc_found_contract busyFreeHeap 20 { addr := 40, size := 4096, free := true }
    (by decide) (by decide) (by decide)

/-- Claim C1 counterexample: on a free block of size exactly 8, `malloc 8`
    marks the whole block busy without splitting, and the busy block's size
    equals the request — it is not larger than requested, refuting the
    claim's "is larger than requested". -/
theorem malloc_exact_fit_not_larger :
    (malloc exactFitHeap 8).2 = some (0 + headerSize) ∧
    (malloc exactFitHeap 8).1.blocks = [{ addr := 0, size := 8, free := false }] ∧
    ¬ ∃ blk ∈ (malloc exactFitHeap 8).1.blocks, 8 < blk.size := by
  decide

/-- Claim C3: under the precondition that the block is free and
    `block.size >= left_size + header_size + MIN_BLOCK_SIZE` (with `size` a
    `size_t` value), `split_block` leaves a left header at the original
    address, of size `left_size` and unchanged free status, and a new header
    at `original_address + header_size + left_size` of size
    `original.size - header_size - left_size` with `free = true`; in the
    resulting chain the left block's `next` is the new block's address and the
    new block's `next` is the original block's old `next`. -/
theorem split_block_spec (b : Block) (left_size : Nat) (post : List Block)
    (hfree : b.free = true)
    (hpre : left_size + headerSize + MIN_BLOCK_SIZE ≤ b.size)
    (hbM : b.size < MOD) :
    (split_block b left_size).1.addr = b.addr ∧
    (split_block b left_size).1.size = left_size ∧
    (split_block b left_size).1.free = b.free ∧
    (split_block b left_size).2.addr = b.addr + headerSize + left_size ∧
    (split_block b left_size).2.size = b.size - headerSize - left_size ∧
    (split_block b left_size).2.free = true ∧
    next_addrs ((split_block b left_size).1 :: (split_block b left_size).2 :: post) =
      some (split_block b left_size).2.addr ::
        next_addrs ((split_block b left_size).2 :: post) ∧
    (next_addrs ((split_block b left_size).2 :: post)).head? =
      (next_addrs (b :: post)).head? := by
  refine ⟨rfl, rfl, rfl, rfl, ?_, rfl, rfl, ?_⟩
  · show sub64 (sub64 b.size headerSize) left_size = b.size - headerSize - left_size
    rw [sub64_eq (by omega) hbM, sub64_eq (by omega) (by omega)]
  · cases post <;> rfl

/-- Claim C3 witness: splitting a free 100-byte block at left size 4. -/
theorem split_block_spec_witness :
    (split_block splitDemoBlock 4).1.addr = 0 ∧
    (split_block splitDemoBlock 4).1.size = 4 ∧
    (split_block splitDemoBlock 4).1.free = true ∧
    (split_block splitDemoBlock 4).2.addr = 0 + headerSize + 4 ∧
    (split_block splitDemoBlock 4).2.size = 100 - headerSize - 4 ∧
    (split_block splitDemoBlock 4).2.free = true ∧
    next_addrs ((split_block splitDemoBlock 4).1 :: (split_block splitDemoBlock 4).2 :: []) =
      some (split_block splitDemoBlock 4).2.addr ::
        next_addrs ((split_block splitDemoBlock 4).2 :: []) ∧
    (next_addrs ((split_block splitDemoBlock 4).2 :: [])).head? =
      (next_addrs (splitDemoBlock :: [])).head? :=
  split_block_spec splitDemoBlock 4 [] (by decide) (by decide) (by decide)

/-- Claim C4: after `init_heap` and any sequence of `malloc` calls, summing
    `header_size + size` over all blocks of the chain gives back exactly the
    size passed to `init_heap` — splitting neither loses nor gains bytes. -/
theorem coverage_reachable {s : Nat} {h : Heap} (R : Reachable s h) :
    coverage h.blocks = s :=
  (reachable_inv R).2.2.2

/-- Claim C4 witness: after `init_heap 0 65536` and one `malloc 4`, coverage
    is still 65536. -/
theorem coverage_reachable_witness :
    coverage (malloc (init_heap 0 65536) 4).1.blocks = 65536 :=
  coverage_reachable
    (Reachable.step 65536 (init_heap 0 65536) 4
      (Reachable.init 0 65536 (by decide) (by decide)))

/-- Claim C5: after `init_heap` and any sequence of `malloc` calls, every
    block but the last is followed at address `addr + header_size + size` by
    its successor, and exactly one block — the terminal one — has a null
    `next`. -/
theorem contiguity_reachable {s : Nat} {h : Heap} (R : Reachable s h) :
    contiguousB h.blocks = true ∧ (next_addrs h.blocks).count none = 1 := by
  obtain ⟨h1, h2, -, -⟩ := reachable_inv R
  exact ⟨h2, next_addrs_count_none _ h1⟩

/-- Claim C5 witness: contiguity after `init_heap 4096 65536` and one
    `malloc 4`. -/
theorem contiguity_reachable_witness :
    contiguousB (malloc (init_heap 4096 65536) 4).1.blocks = true ∧
    (next_addrs (malloc (init_heap 4096 65536) 4).1.blocks).count none = 1 :=
  contiguity_reachable
    (Reachable.step 65536 (init_heap 4096 65536) 4
      (Reachable.init 4096 65536 (by decide) (by decide)))

/-- Claim C6 (code bug evidence): `init_heap` performs no check of the `mmap`
    result.  Evaluated with the `MAP_FAILED` sentinel as the returned memory,
    it still installs a fully formatted heap headed at that address, and a
    subsequent allocation search happily returns a block there — there is no
    fatal-error path in the code. -/
theorem init_heap_no_failure_check :
    init_heap MAP_FAILED_ADDR 65536 =
      { blocks := [{ addr := MAP_FAILED_ADDR, size := 65536 - headerSize, free := true }],
        size := 65536 } ∧
    find_free_block 4 (init_heap MAP_FAILED_ADDR 65536).blocks =
      some { addr := MAP_FAILED_ADDR, size := 65536 - headerSize, free := true } := by
  decide

/-- Claim C7: when no block qualifies — in particular when the request exceeds
    every free block's size — `malloc` returns null and the heap is completely
    unchanged: no size, free flag or link of any block is mutated. -/
theorem malloc_oom_unchanged (h : Heap) (req : Nat)
    (hno : ∀ b ∈ h.blocks, ¬(b.free = true ∧ req ≤ b.size)) :
    malloc h req = (h, none) := by
  have hml := malloc_list_of_no_fit hno
  simp [malloc, hml]

/-- Claim C7 witness: a request of 1000 bytes against a heap whose only free
    block holds 4 bytes returns null and leaves the heap untouched. -/
theorem malloc_oom_unchanged_witness :
    malloc smallFreeHeap 1000 = (smallFreeHeap, none) :=
  malloc_oom_unchanged smallFreeHeap 1000 (by decide)

/-- Claim C8: the heap walk is read-only — it reports status, address and size
    for each block from `head` in chain order, leaves the heap exactly as it
    was, and two consecutive walks with no intervening allocation produce
    identical output. -/
theorem print_heap_readonly (h : Heap) :
    (print_heap h).2 = h ∧
    (print_heap ((print_heap h).2)).1 = (print_heap h).1 ∧
    (print_heap h).1 = h.blocks.map (fun b => (b.free, b.addr, b.size)) :=
  ⟨rfl, rfl, print_heap_blocks_eq_map h.blocks⟩

/-- Claim C9: on any heap holding at least one free block, `malloc 0`
    succeeds — zero satisfies any free block's `size >= 0` — and returns the
    found block's payload address; if the found (first free) block is big
    enough to split, the heap afterwards contains a busy block of payload size
    0, below `MIN_BLOCK_SIZE`. -/
theorem malloc_zero (h : Heap) (hex : ∃ b ∈ h.blocks, b.free = true) :
    ∃ f, find_free_block 0 h.blocks = some f ∧
      (malloc h 0).2 = some (f.addr + headerSize) ∧
      (headerSize + MIN_BLOCK_SIZE ≤ f.size →
        ∃ blk ∈ (malloc h 0).1.blocks, blk.free = false ∧ blk.size = 0) := by
  obtain ⟨f, hfind⟩ := find_zero_of_free hex
  refine ⟨f, hfind, ?_, ?_⟩
  · show (malloc_list 0 h.blocks).2 = some (f.addr + headerSize)
    rw [malloc_list_snd_eq_find, hfind]
    rfl
  · intro hbig
    obtain ⟨pre, post, heq, hfree, hsz, hpre⟩ := find_free_block_eq_some_iff.mp hfind
    have hml := malloc_list_decomp 0 pre f post hpre hfree hsz
    have hc : add64 (add64 0 headerSize) MIN_BLOCK_SIZE = headerSize + MIN_BLOCK_SIZE := by
      decide
    have hcond : add64 (add64 0 headerSize) MIN_BLOCK_SIZE ≤ f.size := by
      rw [hc]; exact hbig
    refine ⟨{ f with size := 0, free := false }, ?_, rfl, rfl⟩
    show _ ∈ (malloc_list 0 h.blocks).1
    rw [heq, hml]
    simp only [alloc_pieces, if_pos hcond, split_block]
    simp [List.mem_append]

/-- Claim C9 witness: `malloc 0` on a single 100-byte free block returns its
    payload address and leaves behind a busy block of size 0. -/
theorem malloc_zero_witness :
    ∃ f, find_free_block 0 oneFreeHeap.blocks = some f ∧
      (malloc oneFreeHeap 0).2 = some (f.addr + headerSize) ∧
      (headerSize + MIN_BLOCK_SIZE ≤ f.size →
        ∃ blk ∈ (malloc oneFreeHeap 0).1.blocks, blk.free = false ∧ blk.size = 0) :=
  malloc_zero oneFreeHeap (by decide)

/-- Claim C10: `init_heap` applies `first->size = size - sizeof(Block)` with
    no precondition check, so a requested size below the header size records
    the `size_t` difference wrapped modulo `2 ^ 64` — a huge value of at least
    `2 ^ 64 - header_size` — instead of failing or rejecting the call. -/
theorem init_heap_underflow (memory size : Nat) (hsz : size < headerSize) :
    (init_heap memory size).blocks =
      [{ addr := memory, size := (size + MOD - headerSize) % MOD, free := true }] ∧
    MOD - headerSize ≤ (size + MOD - headerSize) % MOD := by
  have h24 : headerSize < MOD := by decide
  have h1 : size % MOD = size := Nat.mod_eq_of_lt (lt_trans hsz h24)
  have h2 : headerSize % MOD = headerSize := Nat.mod_eq_of_lt h24
  have h3 : size + MOD - headerSize < MOD := by omega
  constructor
  · simp [init_heap, sub64, h1, h2]
  · rw [Nat.mod_eq_of_lt h3]
    omega

/-- Claim C10 witness: `init_heap` with requested size 10 records block size
    `(10 + 2 ^ 64 - 24) % 2 ^ 64 = 2 ^ 64 - 14`. -/
theorem init_heap_underflow_witness :
    (init_heap 0 10).blocks =
      [{ addr := 0, size := (10 + MOD - headerSize) % MOD, free := true }] ∧
    MOD - headerSize ≤ (10 + MOD - headerSize) % MOD :=
  init_heap_underflow 0 10 (by decide)

end MallocC
